import Mathlib

/-
  Verification development for the formula dependency and structural-analysis
  engine of `excel_to_code/extractors/context_extractor.py`.

  The embedding models, over `List Char` / `String`:
    - `_extract_cell_references` (three regex passes and the containment filter),
    - `_extract_functions`,
    - `_analyze_dependencies` (insertion-ordered dict as an association list),
    - `_determine_calculation_order` (the recursive DFS with a visited set,
      modelled with an explicit fuel parameter large enough to never run out),
    - `_analyze_data_flow`,
    - `_detect_patterns` / `_extract_formula_template`.

  Python's `list(set(xs))` has no specified order; it is modelled as
  first-occurrence deduplication (`dedupFirst`).  No claim below depends on the
  order chosen, only on the membership of the deduplicated list.
-/

namespace ExcelCtx

/-! ### Character classes (the source's regexes operate on ASCII formula text) -/

/-- `[A-Z]` -/
def isUA (c : Char) : Bool := 'A' ≤ c && c ≤ 'Z'

/-- `\d` -/
def isDig (c : Char) : Bool := '0' ≤ c && c ≤ '9'

/-- `\w` (ASCII portion: letters, digits, underscore). -/
def isWordC (c : Char) : Bool := c.isAlphanum || c = '_'

/-- The apostrophe character used to quote sheet names. -/
def apos : Char := Char.ofNat 39

/-- Whether a list of characters starts with a word character (used for the
trailing `\b` test: after letters/digits, a boundary holds iff the next
character is absent or not a word character). -/
def startsWord : List Char → Bool
  | [] => false
  | c :: _ => isWordC c

/-! ### Matchers for the three reference patterns

`pattern1 = \b([A-Z]+\d+)\b`, `pattern2 = \b([A-Z]+\d+:[A-Z]+\d+)\b`,
`pattern3 = ('[^']+?'|[A-Z]\w*)!([A-Z]+\d+(?::[A-Z]+\d+)?)`.

Each matcher takes the remaining input (the leading `\b` is handled by the
scanner, which tracks whether the previous character was a word character)
and returns the matched text together with the rest of the input. -/

/-- Match `[A-Z]+\d+` followed by a word boundary (pattern1 body). -/
def matchCoord (s : List Char) : Option (List Char × List Char) :=
  let letters := s.takeWhile isUA
  if letters.isEmpty then none
  else
    let r1 := s.dropWhile isUA
    let digits := r1.takeWhile isDig
    if digits.isEmpty then none
    else
      let r2 := r1.dropWhile isDig
      if startsWord r2 then none
      else some (letters ++ digits, r2)

/-- Match `[A-Z]+\d+:[A-Z]+\d+` followed by a word boundary (pattern2 body). -/
def matchRange (s : List Char) : Option (List Char × List Char) :=
  let l1 := s.takeWhile isUA
  if l1.isEmpty then none
  else
    let r1 := s.dropWhile isUA
    let d1 := r1.takeWhile isDig
    if d1.isEmpty then none
    else
      match r1.dropWhile isDig with
      | ':' :: r2 =>
        let l2 := r2.takeWhile isUA
        if l2.isEmpty then none
        else
          let r3 := r2.dropWhile isUA
          let d2 := r3.takeWhile isDig
          if d2.isEmpty then none
          else
            let r4 := r3.dropWhile isDig
            if startsWord r4 then none
            else some (l1 ++ d1 ++ ':' :: (l2 ++ d2), r4)
      | _ => none

/-- Match group 2 of pattern3: `[A-Z]+\d+(?::[A-Z]+\d+)?` (no trailing
boundary; the optional range half is taken greedily when fully present). -/
def matchCoordRange (s : List Char) : Option (List Char × List Char) :=
  let l1 := s.takeWhile isUA
  if l1.isEmpty then none
  else
    let r1 := s.dropWhile isUA
    let d1 := r1.takeWhile isDig
    if d1.isEmpty then none
    else
      match r1.dropWhile isDig with
      | ':' :: r3 =>
        let l2 := r3.takeWhile isUA
        let r4 := r3.dropWhile isUA
        let d2 := r4.takeWhile isDig
        if l2.isEmpty || d2.isEmpty then some (l1 ++ d1, ':' :: r3)
        else some (l1 ++ d1 ++ ':' :: (l2 ++ d2), r4.dropWhile isDig)
      | r2 => some (l1 ++ d1, r2)

/-- Match pattern3 at the current position.  The quoted branch `'[^']+?'`
keeps the quotes in group 1, exactly as `match.group(1)` does in the source;
the lazy quantifier cannot extend past the first closing quote, so the
content is everything up to the next apostrophe. -/
def matchP3 (s : List Char) : Option (List Char × List Char) :=
  match s with
  | [] => none
  | c :: rest =>
    if c = apos then
      let content := rest.takeWhile (fun x => x ≠ apos)
      if content.isEmpty then none
      else
        match rest.dropWhile (fun x => x ≠ apos) with
        | _ :: '!' :: r2 =>
          match matchCoordRange r2 with
          | some (g2, rem) => some ((apos :: content ++ [apos]) ++ '!' :: g2, rem)
          | none => none
        | _ => none
    else if isUA c then
      let w := rest.takeWhile isWordC
      match rest.dropWhile isWordC with
      | '!' :: r2 =>
        match matchCoordRange r2 with
        | some (g2, rem) => some ((c :: w) ++ '!' :: g2, rem)
        | none => none
      | _ => none
    else none

/-! ### Scanners (`re.finditer`: left-to-right, non-overlapping)

Each scanner carries a fuel argument; one unit of fuel is spent per input
position or match, so fuel equal to the input length is always enough.
Scanners for patterns with a leading `\b` also carry whether the previous
character of the original input was a word character. -/

/-- All pattern1 matches, left to right. -/
def scanP1 : Nat → Bool → List Char → List (List Char)
  | 0, _, _ => []
  | _ + 1, _, [] => []
  | n + 1, prevW, c :: rest =>
    if prevW then scanP1 n (isWordC c) rest
    else
      match matchCoord (c :: rest) with
      | some (m, rem) => m :: scanP1 n true rem
      | none => scanP1 n (isWordC c) rest

/-- All pattern2 matches, left to right. -/
def scanP2 : Nat → Bool → List Char → List (List Char)
  | 0, _, _ => []
  | _ + 1, _, [] => []
  | n + 1, prevW, c :: rest =>
    if prevW then scanP2 n (isWordC c) rest
    else
      match matchRange (c :: rest) with
      | some (m, rem) => m :: scanP2 n true rem
      | none => scanP2 n (isWordC c) rest

/-- All pattern3 matches, left to right (no boundary requirement). -/
def scanP3 : Nat → List Char → List (List Char)
  | 0, _ => []
  | _ + 1, [] => []
  | n + 1, c :: rest =>
    match matchP3 (c :: rest) with
    | some (m, rem) => m :: scanP3 n rem
    | none => scanP3 n rest

/-- Python's substring test `a in b`. -/
def isSubstrL (a b : List Char) : Bool :=
  b.tails.any (fun t => decide (t.take a.length = a))

/-- First-occurrence deduplication, modelling `list(set(xs))` (whose order
CPython leaves unspecified). -/
def dedupFirst (l : List String) : List String :=
  l.foldl (fun acc x => if x ∈ acc then acc else acc ++ [x]) []

/-- `_extract_cell_references`: pattern3 matches (as `group1!group2`), then
pattern2 matches, then pattern1 matches filtered by the "not already a
member / not a substring of an already collected reference" test, finally
`list(set(...))`. -/
def extract_cell_references (formula : String) : List String :=
  let s := formula.data
  let refs3 : List String := (scanP3 s.length s).map (fun l => ⟨l⟩)
  let refs2 : List String := (scanP2 s.length false s).map (fun l => ⟨l⟩)
  let base := refs3 ++ refs2
  let withP1 := (scanP1 s.length false s).foldl
    (fun acc m =>
      let ref : String := ⟨m⟩
      if acc.contains ref || acc.any (fun r => isSubstrL ref.data r.data) then acc
      else acc ++ [ref])
    base
  dedupFirst withP1

/-- Match the body of `\b([A-Z][A-Z0-9_.]*)\s*\(` (function-name pattern). -/
def isFuncChar (c : Char) : Bool := isUA c || isDig c || c = '_' || c = '.'

def matchFunc (s : List Char) : Option (List Char × List Char) :=
  match s with
  | [] => none
  | c :: rest =>
    if isUA c then
      let w := rest.takeWhile isFuncChar
      match (rest.dropWhile isFuncChar).dropWhile (fun x => x = ' ') with
      | '(' :: r2 => some (c :: w, '(' :: r2)
      | _ => none
    else none

def scanFuncs : Nat → Bool → List Char → List (List Char)
  | 0, _, _ => []
  | _ + 1, _, [] => []
  | n + 1, prevW, c :: rest =>
    if prevW then scanFuncs n (isWordC c) rest
    else
      match matchFunc (c :: rest) with
      | some (m, _) => m :: scanFuncs n (isWordC c) rest
      | none => scanFuncs n (isWordC c) rest

/-- `_extract_functions`. -/
def extract_functions (formula : String) : List String :=
  dedupFirst ((scanFuncs formula.data.length false formula.data).map (fun l => ⟨l⟩))

/-! ### `_analyze_dependencies`

The `defaultdict` of `{"direct_depends": [], "depended_by": []}` entries is
modelled as an insertion-ordered association list; a missing key reads as an
entry with two empty lists, and a key created by an update is appended at the
end, as dict insertion order does. -/

structure DepInfo where
  direct_depends : List String
  depended_by : List String
  deriving Repr, DecidableEq

abbrev DepMap := List (String × DepInfo)

def lookupDep : DepMap → String → Option DepInfo
  | [], _ => none
  | (k', i) :: rest, k => if k = k' then some i else lookupDep rest k

def directDependsOf (m : DepMap) (k : String) : List String :=
  match lookupDep m k with
  | some i => i.direct_depends
  | none => []

def dependedByOf (m : DepMap) (k : String) : List String :=
  match lookupDep m k with
  | some i => i.depended_by
  | none => []

/-- `dependencies[k]["direct_depends"] = ds` (creating the entry if absent). -/
def updDirect : DepMap → String → List String → DepMap
  | [], k, ds => [(k, ⟨ds, []⟩)]
  | (k', i) :: rest, k, ds =>
    if k = k' then (k', ⟨ds, i.depended_by⟩) :: rest
    else (k', i) :: updDirect rest k ds

/-- `dependencies[k]["depended_by"].append(who)` (creating the entry if absent). -/
def addDby : DepMap → String → String → DepMap
  | [], k, who => [(k, ⟨[], [who]⟩)]
  | (k', i) :: rest, k, who =>
    if k = k' then (k', ⟨i.direct_depends, i.depended_by ++ [who]⟩) :: rest
    else (k', i) :: addDby rest k who

/-- `cell_ref.split('!')[0]`. -/
def sheetOf (ref : String) : String := ⟨ref.data.takeWhile (fun c => c ≠ '!')⟩

/-- The coordinate part after the (first) `!` of a `Sheet!Coord` address. -/
def cellPartOf (ref : String) : String :=
  ⟨(ref.data.dropWhile (fun c => c ≠ '!')).drop 1⟩

/-- `'!' in dep`. -/
def containsBang (s : String) : Bool := s.data.any (fun c => c = '!')

/-- Resolve a reference against the formula cell's own sheet when it has no
explicit sheet qualifier. -/
def normalizeDep (sheet dep : String) : String :=
  if containsBang dep then dep else sheet ++ "!" ++ dep

/-- The normalized dependency list of one formula cell. -/
def normDeps (cellRef formula : String) : List String :=
  (extract_cell_references formula).map (normalizeDep (sheetOf cellRef))

/-- One iteration of the `_analyze_dependencies` loop for a formula cell. -/
def processFormula (m : DepMap) (cellRef formula : String) : DepMap :=
  let deps := normDeps cellRef formula
  let m1 := updDirect m cellRef deps
  deps.foldl (fun acc d => addDby acc d cellRef) m1

/-- `_analyze_dependencies`, over the formula table (cell address, raw
formula text) in dict iteration order. -/
def analyze_dependencies (formulas : List (String × String)) : DepMap :=
  formulas.foldl (fun m p => processFormula m p.1 p.2) []

/-! ### `_determine_calculation_order`

The source's recursive `visit` with a `visited` set and postorder append,
modelled with a fuel parameter.  Every nested call adds a fresh cell to
`visited`, and all visited cells belong to the universe of keys and
dependency targets, so fuel exceeding the universe size never runs out. -/

abbrev St := List String × List String

def visitCell (g : DepMap) : Nat → String → St → St
  | 0, _, s => s
  | n + 1, c, s =>
    if c ∈ s.1 then s
    else
      let s2 := (directDependsOf g c).foldl
        (fun t d => visitCell g n d t) (c :: s.1, s.2)
      (s2.1, s2.2 ++ [c])

/-- The dependency loop of `visit`, as an explicit recursion (equal to the
`foldl` inside `visitCell`, see `visitList_eq_foldl`). -/
def visitList (g : DepMap) (n : Nat) : List String → St → St
  | [], s => s
  | d :: ds, s => visitList g n ds (visitCell g n d s)

/-- All cells that can ever be visited: the dict keys and every
`direct_depends` target. -/
def universeOf (g : DepMap) : List String :=
  g.map Prod.fst ++ (g.map (fun e => e.2.direct_depends)).flatten

def calcOrderFuel (g : DepMap) : Nat := (universeOf g).length + 1

def determineCalculationOrderFrom (g : DepMap) : List String :=
  (visitList g (calcOrderFuel g) (g.map Prod.fst) ([], [])).2

/-- `_determine_calculation_order` on a formula table. -/
def determine_calculation_order (formulas : List (String × String)) : List String :=
  determineCalculationOrderFrom (analyze_dependencies formulas)

/-! ### `_analyze_data_flow`

`cell_values` entries are consumed only through their `is_input` and
`is_formula` fields, modelled here by `CellClass`; `_extract_cell_values`
always sets `is_input = not is_formula`, which the partition theorem takes
as a hypothesis. -/

structure CellClass where
  is_input : Bool
  is_formula : Bool
  deriving Repr, DecidableEq

/-- The three cell lists of the returned stages (stage numbers and the fixed
description strings of the source's result dicts are omitted as constants). -/
structure DataFlow where
  input_cells : List String
  calc_cells : List String
  output_cells : List String
  deriving Repr, DecidableEq

/-- One iteration of the `_analyze_data_flow` classification loop:
`is_input` cells go to `input_cells`; otherwise formula cells go to
`output_cells` when `deps.get(cell_ref, {}).get("depended_by")` is falsy and
to `calc_cells` otherwise. -/
def dfStep (deps : DepMap) (acc : DataFlow) (p : String × CellClass) : DataFlow :=
  if p.2.is_input then { acc with input_cells := acc.input_cells ++ [p.1] }
  else if p.2.is_formula then
    if dependedByOf deps p.1 = [] then
      { acc with output_cells := acc.output_cells ++ [p.1] }
    else { acc with calc_cells := acc.calc_cells ++ [p.1] }
  else acc

/-- `_analyze_data_flow`. -/
def analyze_data_flow (cellValues : List (String × CellClass)) (deps : DepMap) :
    DataFlow :=
  cellValues.foldl (dfStep deps) ⟨[], [], []⟩

/-! ### `_detect_patterns` and `_extract_formula_template` -/

/-- Replacement text `{row}` of the template substitution (braces written as
hex escapes). -/
def braceRow : List Char := "\x7brow\x7d".data

/-- Match the body of `\b([A-Z]+)<row>\b` at the current position: a maximal
run of capital letters, then the decimal digits of the row number, then a
word boundary. -/
def matchRowTok (rowDigits : List Char) (s : List Char) :
    Option (List Char × List Char) :=
  if (s.takeWhile isUA).isEmpty then none
  else if (s.dropWhile isUA).take rowDigits.length = rowDigits then
    if startsWord ((s.dropWhile isUA).drop rowDigits.length) then none
    else some (s.takeWhile isUA, (s.dropWhile isUA).drop rowDigits.length)
  else none

/-- `re.sub(r'\b([A-Z]+)<row>\b', r'\1{row}', formula)`, scanning left to
right with a word-boundary flag, one unit of fuel per step. -/
def rowsubAux (rowDigits : List Char) : Nat → Bool → List Char → List Char
  | 0, _, s => s
  | _ + 1, _, [] => []
  | n + 1, prevW, c :: rest =>
    if prevW then c :: rowsubAux rowDigits n (isWordC c) rest
    else
      match matchRowTok rowDigits (c :: rest) with
      | some (letters, r2) => letters ++ braceRow ++ rowsubAux rowDigits n true r2
      | none => c :: rowsubAux rowDigits n (isWordC c) rest

/-- A single formula's template: its own row number abstracted to `{row}`. -/
def rowTemplate (row : Nat) (f : String) : String :=
  ⟨rowsubAux (toString row).data (f.data.length + 1) false f.data⟩

/-- `_extract_formula_template`: `None` for fewer than two formulas,
otherwise the common template when `len(set(templates)) == 1`. -/
def extract_formula_template (fis : List (Nat × String)) : Option String :=
  match fis with
  | [] => none
  | [_] => none
  | p :: rest =>
    let templates := (p :: rest).map (fun q => rowTemplate q.1 q.2)
    if (dedupFirst templates).length = 1 then some (templates.headD "") else none

structure Pattern where
  ptype : String
  sheet : String
  column : String
  description : String
  range : String
  formula_template : String
  count : Nat
  rows : List Nat
  deriving Repr, DecidableEq

/-- Ascending insertion sort, modelling `sorted` on the row numbers. -/
def insertAsc (n : Nat) : List Nat → List Nat
  | [] => [n]
  | m :: ms => if n ≤ m then n :: m :: ms else m :: insertAsc n ms

def sortAsc (l : List Nat) : List Nat := l.foldr insertAsc []

/-- The body of the per-column loop of `_detect_patterns`: groups of at
least three formulas whose common template is truthy yield one pattern.
Python's `if template:` is false exactly when the template is `None` or the
empty string, i.e. when `(extract_formula_template fic).getD "" = ""`. -/
def patternsForColumn (sheet col : String) (fic : List (Nat × String)) :
    List Pattern :=
  if 3 ≤ fic.length then
    if (extract_formula_template fic).getD "" ≠ "" then
      [{ ptype := "column_loop", sheet := sheet, column := col,
         description := "列 " ++ col ++ " 中的重複公式模式",
         range := sheet ++ "!" ++ col ++
           toString ((sortAsc (fic.map Prod.fst)).headD 0) ++ ":" ++
           col ++ toString ((sortAsc (fic.map Prod.fst)).getLastD 0),
         formula_template := (extract_formula_template fic).getD "",
         count := fic.length, rows := sortAsc (fic.map Prod.fst) }]
    else []
  else []

/-- Insertion-ordered `defaultdict(list)` append. -/
def groupAdd {α : Type} (m : List (String × List α)) (k : String) (v : α) :
    List (String × List α) :=
  match m with
  | [] => [(k, [v])]
  | (k', vs) :: rest =>
    if k = k' then (k', vs ++ [v]) :: rest else (k', vs) :: groupAdd rest k v

/-- The column letters of a coordinate (`re.match(r'([A-Z]+)', cell)`). -/
def colOf (cell : String) : String := ⟨cell.data.takeWhile isUA⟩

def digitsToNat (ds : List Char) : Nat :=
  ds.foldl (fun n c => n * 10 + (c.toNat - '0'.toNat)) 0

/-- The first digit run of a coordinate (`int(re.search(r'(\d+)', cell).group(1))`). -/
def rowOf (cell : String) : Nat :=
  digitsToNat ((cell.data.dropWhile (fun c => !(isDig c))).takeWhile isDig)

/-- `_detect_patterns`: group the formula cells by sheet, then by column,
and collect the per-column patterns in iteration order. -/
def detect_patterns (formulas : List (String × String)) : List Pattern :=
  let bySheet := formulas.foldl
    (fun m p => groupAdd m (sheetOf p.1) (cellPartOf p.1, p.2)) []
  bySheet.foldl
    (fun acc sf =>
      let byCol := sf.2.foldl
        (fun m cf => groupAdd m (colOf cf.1) (rowOf cf.1, cf.2)) []
      byCol.foldl (fun acc2 cg => acc2 ++ patternsForColumn sf.1 cg.1 cg.2) acc)
    []

/-! ### Concrete example inputs used by several claims -/

/-- The quoted sheet name `'My Sheet'` (apostrophes included). -/
def quotedMySheet : String := ⟨apos :: "My Sheet".data ++ [apos]⟩

/-- The formula `='My Sheet'!B2`. -/
def formulaQuoted : String := "=" ++ quotedMySheet ++ "!B2"

/-- The 2-cycle formula table: `A1` depends on `B1` and `B1` on `A1`. -/
def cycTable : List (String × String) :=
  [("Sheet1!A1", "=B1"), ("Sheet1!B1", "=A1")]

/-- An acyclic table (`A1` depends on the literal cell `B1`). -/
def acycTable : List (String × String) := [("Sheet1!A1", "=B1")]

/-- The spec's example table `A1=10`, `A2=20`, `A3="=A1+A2"` (only the
formula cell enters the formula table). -/
def exTable : List (String × String) := [("Sheet1!A3", "=A1+A2")]

/-- Column group `C2..C5`, all `=A{row}*B{row}`. -/
def exAllSame : List (String × String) :=
  [("Sheet1!C2", "=A2*B2"), ("Sheet1!C3", "=A3*B3"),
   ("Sheet1!C4", "=A4*B4"), ("Sheet1!C5", "=A5*B5")]

/-- The `cell_values` classification flags of the spec's example table:
`A1`, `A2` hold literals, `A3` holds a formula. -/
def exCellValues : List (String × CellClass) :=
  [("Sheet1!A1", ⟨true, false⟩), ("Sheet1!A2", ⟨true, false⟩),
   ("Sheet1!A3", ⟨false, true⟩)]

/-- The dependency dict of the example table. -/
def exDeps : DepMap := analyze_dependencies exTable

/-- Column group `C2..C5` with one mismatching operator in `C5`. -/
def exMismatch : List (String × String) :=
  [("Sheet1!C2", "=A2*B2"), ("Sheet1!C3", "=A3*B3"),
   ("Sheet1!C4", "=A4*B4"), ("Sheet1!C5", "=A5+B5")]

end ExcelCtx

namespace ExcelCtx

/-! ## Association-list lemmas for the dependency dict -/

lemma lookupDep_updDirect_self (m : DepMap) (k : String) (ds : List String) :
    lookupDep (updDirect m k ds) k = some ⟨ds, dependedByOf m k⟩ := by
  induction m with
  | nil => simp [updDirect, lookupDep, dependedByOf]
  | cons e rest ih =>
    obtain ⟨k', i⟩ := e
    by_cases h : k = k'
    · subst h; simp [updDirect, lookupDep, dependedByOf]
    · simp only [updDirect, if_neg h, lookupDep, dependedByOf] at ih ⊢
      simpa [h] using ih

lemma lookupDep_updDirect_other (m : DepMap) (k k' : String) (ds : List String)
    (h : k' ≠ k) : lookupDep (updDirect m k ds) k' = lookupDep m k' := by
  induction m with
  | nil => simp [updDirect, lookupDep, h]
  | cons e rest ih =>
    obtain ⟨k'', i⟩ := e
    by_cases h2 : k = k''
    · subst h2; simp [updDirect, lookupDep, h]
    · simp [updDirect, lookupDep, h2, ih]

lemma lookupDep_addDby_self (m : DepMap) (k who : String) :
    lookupDep (addDby m k who) k =
      some ⟨directDependsOf m k, dependedByOf m k ++ [who]⟩ := by
  induction m with
  | nil => simp [addDby, lookupDep, directDependsOf, dependedByOf]
  | cons e rest ih =>
    obtain ⟨k', i⟩ := e
    by_cases h : k = k'
    · subst h; simp [addDby, lookupDep, directDependsOf, dependedByOf]
    · simp only [addDby, if_neg h, lookupDep, directDependsOf, dependedByOf] at ih ⊢
      simpa [h] using ih

lemma lookupDep_addDby_other (m : DepMap) (k k' who : String) (h : k' ≠ k) :
    lookupDep (addDby m k who) k' = lookupDep m k' := by
  induction m with
  | nil => simp [addDby, lookupDep, h]
  | cons e rest ih =>
    obtain ⟨k'', i⟩ := e
    by_cases h2 : k = k''
    · subst h2; simp [addDby, lookupDep, h]
    · simp [addDby, lookupDep, h2, ih]

lemma dd_updDirect_self (m : DepMap) (k : String) (ds : List String) :
    directDependsOf (updDirect m k ds) k = ds := by
  simp [directDependsOf, lookupDep_updDirect_self]

lemma dd_updDirect_other (m : DepMap) (k k' : String) (ds : List String)
    (h : k' ≠ k) : directDependsOf (updDirect m k ds) k' = directDependsOf m k' := by
  simp [directDependsOf, lookupDep_updDirect_other m k k' ds h]

lemma db_updDirect (m : DepMap) (k k' : String) (ds : List String) :
    dependedByOf (updDirect m k ds) k' = dependedByOf m k' := by
  by_cases h : k' = k
  · subst h; simp [dependedByOf, lookupDep_updDirect_self]
  · simp [dependedByOf, lookupDep_updDirect_other m k k' ds h]

lemma dd_addDby (m : DepMap) (k k' who : String) :
    directDependsOf (addDby m k who) k' = directDependsOf m k' := by
  by_cases h : k' = k
  · subst h; simp [directDependsOf, lookupDep_addDby_self]
  · simp [directDependsOf, lookupDep_addDby_other m k k' who h]

lemma db_addDby_self (m : DepMap) (k who : String) :
    dependedByOf (addDby m k who) k = dependedByOf m k ++ [who] := by
  simp [dependedByOf, lookupDep_addDby_self]

lemma db_addDby_other (m : DepMap) (k k' who : String) (h : k' ≠ k) :
    dependedByOf (addDby m k who) k' = dependedByOf m k' := by
  simp [dependedByOf, lookupDep_addDby_other m k k' who h]

lemma db_addDbyFold (c : String) (ds : List String) (m : DepMap) (x b : String) :
    x ∈ dependedByOf (ds.foldl (fun acc d => addDby acc d c) m) b ↔
      x ∈ dependedByOf m b ∨ (x = c ∧ b ∈ ds) := by
  induction ds generalizing m with
  | nil => simp
  | cons d ds ih =>
    simp only [List.foldl_cons, ih, List.mem_cons]
    by_cases hbd : b = d
    · subst hbd; rw [db_addDby_self]; simp [List.mem_append]; tauto
    · rw [db_addDby_other m d b c hbd]; tauto

lemma dd_addDbyFold (c : String) (ds : List String) (m : DepMap) (a : String) :
    directDependsOf (ds.foldl (fun acc d => addDby acc d c) m) a =
      directDependsOf m a := by
  induction ds generalizing m with
  | nil => rfl
  | cons d ds ih => simp [List.foldl_cons, ih, dd_addDby]

lemma dd_processFormula (m : DepMap) (cellRef formula a : String) :
    directDependsOf (processFormula m cellRef formula) a =
      if a = cellRef then normDeps cellRef formula else directDependsOf m a := by
  unfold processFormula
  rw [dd_addDbyFold]
  by_cases h : a = cellRef
  · subst h; rw [if_pos rfl, dd_updDirect_self]
  · rw [if_neg h, dd_updDirect_other m cellRef a _ h]

lemma db_processFormula (m : DepMap) (cellRef formula x b : String) :
    x ∈ dependedByOf (processFormula m cellRef formula) b ↔
      x ∈ dependedByOf m b ∨ (x = cellRef ∧ b ∈ normDeps cellRef formula) := by
  unfold processFormula
  rw [db_addDbyFold, db_updDirect]

/-- Mutual consistency of the two adjacency directions. -/
def ConsistentDeps (m : DepMap) : Prop :=
  ∀ A B, B ∈ directDependsOf m A ↔ A ∈ dependedByOf m B

lemma consistent_foldl (fs : List (String × String)) :
    ∀ m : DepMap, ConsistentDeps m →
      (∀ k ∈ fs.map Prod.fst, directDependsOf m k = []) →
      (fs.map Prod.fst).Nodup →
      ConsistentDeps (fs.foldl (fun m p => processFormula m p.1 p.2) m) := by
  induction fs with
  | nil => intro m hc _ _; exact hc
  | cons p fs ih =>
    intro m hc hdd hnd
    simp only [List.map_cons, List.nodup_cons] at hnd
    simp only [List.foldl_cons]
    apply ih
    · intro A B
      rw [db_processFormula, dd_processFormula]
      by_cases hA : A = p.1
      · rw [if_pos hA]
        constructor
        · intro hB; exact Or.inr ⟨hA, hB⟩
        · rintro (hdb | ⟨-, hB⟩)
          · have h0 : directDependsOf m A = [] := by
              rw [hA]; exact hdd p.1 (by simp)
            have hmem := (hc A B).mpr hdb
            rw [h0] at hmem
            exact absurd hmem (List.not_mem_nil B)
          · exact hB
      · rw [if_neg hA, hc A B]
        constructor
        · exact Or.inl
        · rintro (h | ⟨hAc, _⟩)
          · exact h
          · exact absurd hAc hA
    · intro k hk
      rw [dd_processFormula]
      have hne : k ≠ p.1 := by
        intro he; subst he; exact hnd.1 hk
      rw [if_neg hne]
      exact hdd k (by simp [hk])
    · exact hnd.2

/-- C3: in the dependency structure built by `_analyze_dependencies` from
any formula table (dict keys are unique), the forward and reverse
adjacencies are mutually consistent: `B ∈ direct_depends(A)` iff
`A ∈ depended_by(B)`. -/
theorem dependency_graph_consistent (formulas : List (String × String))
    (h : (formulas.map Prod.fst).Nodup) (A B : String) :
    B ∈ directDependsOf (analyze_dependencies formulas) A ↔
      A ∈ dependedByOf (analyze_dependencies formulas) B := by
  have := consistent_foldl formulas []
    (by intro A B; simp [directDependsOf, dependedByOf, lookupDep])
    (by intro k _; rfl) h
  exact this A B

/-- C3 witness: the consistency theorem at the concrete one-formula table
`S!A2 = "=A1"`, where both sides of the equivalence hold. -/
theorem dependency_graph_consistent_witness :
    ("S!A1" ∈ directDependsOf (analyze_dependencies [("S!A2", "=A1")]) "S!A2" ↔
      "S!A2" ∈ dependedByOf (analyze_dependencies [("S!A2", "=A1")]) "S!A1") ∧
    "S!A1" ∈ directDependsOf (analyze_dependencies [("S!A2", "=A1")]) "S!A2" :=
  ⟨dependency_graph_consistent [("S!A2", "=A1")] (by decide) "S!A2" "S!A1",
   by decide⟩

/-! ## Data-flow partition (C8) -/

lemma assoc_nodup_unique {β : Type} {cv : List (String × β)}
    (h : (cv.map Prod.fst).Nodup) {c : String} {b1 b2 : β}
    (h1 : (c, b1) ∈ cv) (h2 : (c, b2) ∈ cv) : b1 = b2 := by
  induction cv with
  | nil => cases h1
  | cons p cv ih =>
    simp only [List.map_cons, List.nodup_cons] at h
    rcases List.mem_cons.mp h1 with e1 | m1
    · rcases List.mem_cons.mp h2 with e2 | m2
      · rw [← e1] at e2; simpa using e2.symm
      · exfalso
        apply h.1
        rw [← e1]
        exact List.mem_map.mpr ⟨(c, b2), m2, rfl⟩
    · rcases List.mem_cons.mp h2 with e2 | m2
      · exfalso
        apply h.1
        rw [← e2]
        exact List.mem_map.mpr ⟨(c, b1), m1, rfl⟩
      · exact ih h.2 m1 m2

lemma mem_filter_map_fst {β : Type} (f : String × β → Bool)
    (cv : List (String × β)) (h : (cv.map Prod.fst).Nodup)
    {c : String} {ci : β} (hc : (c, ci) ∈ cv) :
    c ∈ (cv.filter f).map Prod.fst ↔ f (c, ci) = true := by
  constructor
  · intro hm
    rcases List.mem_map.mp hm with ⟨p, hp, he⟩
    obtain ⟨p1, p2⟩ := p
    have hpcv := List.mem_filter.mp hp
    have hp1 : p1 = c := he
    subst hp1
    have hval : p2 = ci := assoc_nodup_unique h hpcv.1 hc
    subst hval
    exact hpcv.2
  · intro hf
    exact List.mem_map.mpr ⟨(c, ci), List.mem_filter.mpr ⟨hc, hf⟩, rfl⟩

lemma adf_inputs (deps : DepMap) (cv : List (String × CellClass)) :
    ∀ acc : DataFlow,
      (cv.foldl (dfStep deps) acc).input_cells =
        acc.input_cells ++ (cv.filter (fun p => p.2.is_input)).map Prod.fst := by
  induction cv with
  | nil => intro acc; simp
  | cons p cv ih =>
    intro acc
    simp only [List.foldl_cons, List.filter_cons]
    by_cases h1 : p.2.is_input
    · simp [dfStep, h1, ih, List.append_assoc]
    · by_cases h2 : p.2.is_formula
      · by_cases h3 : dependedByOf deps p.1 = [] <;>
          simp [dfStep, h1, h2, h3, ih]
      · simp [dfStep, h1, h2, ih]

lemma adf_calcs (deps : DepMap) (cv : List (String × CellClass)) :
    ∀ acc : DataFlow,
      (cv.foldl (dfStep deps) acc).calc_cells =
        acc.calc_cells ++ (cv.filter (fun p =>
          !p.2.is_input && p.2.is_formula &&
            !decide (dependedByOf deps p.1 = []))).map Prod.fst := by
  induction cv with
  | nil => intro acc; simp
  | cons p cv ih =>
    intro acc
    simp only [List.foldl_cons, List.filter_cons]
    by_cases h1 : p.2.is_input
    · simp [dfStep, h1, ih]
    · by_cases h2 : p.2.is_formula
      · by_cases h3 : dependedByOf deps p.1 = [] <;>
          simp [dfStep, h1, h2, h3, ih, List.append_assoc]
      · simp [dfStep, h1, h2, ih]

lemma adf_outputs (deps : DepMap) (cv : List (String × CellClass)) :
    ∀ acc : DataFlow,
      (cv.foldl (dfStep deps) acc).output_cells =
        acc.output_cells ++ (cv.filter (fun p =>
          !p.2.is_input && p.2.is_formula &&
            decide (dependedByOf deps p.1 = []))).map Prod.fst := by
  induction cv with
  | nil => intro acc; simp
  | cons p cv ih =>
    intro acc
    simp only [List.foldl_cons, List.filter_cons]
    by_cases h1 : p.2.is_input
    · simp [dfStep, h1, ih]
    · by_cases h2 : p.2.is_formula
      · by_cases h3 : dependedByOf deps p.1 = [] <;>
          simp [dfStep, h1, h2, h3, ih, List.append_assoc]
      · simp [dfStep, h1, h2, ih]

/-- C8: `_analyze_data_flow` partitions every valued cell into exactly one
of the three classes — `input` iff the cell holds no formula, `calculation`
iff it has a formula and a nonempty `depended_by` list, `output` iff it has
a formula and no dependents — given that `_extract_cell_values` always sets
`is_input = not is_formula` and that the cell dict has unique keys. -/
theorem data_flow_partition (cv : List (String × CellClass)) (deps : DepMap)
    (hk : (cv.map Prod.fst).Nodup)
    (hcompl : ∀ p ∈ cv, p.2.is_input = !p.2.is_formula)
    (c : String) (ci : CellClass) (hc : (c, ci) ∈ cv) :
    ((c ∈ (analyze_data_flow cv deps).input_cells ↔ ci.is_formula = false) ∧
     (c ∈ (analyze_data_flow cv deps).calc_cells ↔
        ci.is_formula = true ∧ dependedByOf deps c ≠ []) ∧
     (c ∈ (analyze_data_flow cv deps).output_cells ↔
        ci.is_formula = true ∧ dependedByOf deps c = [])) ∧
    ((c ∈ (analyze_data_flow cv deps).input_cells ∧
        c ∉ (analyze_data_flow cv deps).calc_cells ∧
        c ∉ (analyze_data_flow cv deps).output_cells) ∨
     (c ∉ (analyze_data_flow cv deps).input_cells ∧
        c ∈ (analyze_data_flow cv deps).calc_cells ∧
        c ∉ (analyze_data_flow cv deps).output_cells) ∨
     (c ∉ (analyze_data_flow cv deps).input_cells ∧
        c ∉ (analyze_data_flow cv deps).calc_cells ∧
        c ∈ (analyze_data_flow cv deps).output_cells)) := by
  have hin : c ∈ (analyze_data_flow cv deps).input_cells ↔ ci.is_formula = false := by
    rw [analyze_data_flow, adf_inputs, List.nil_append,
      mem_filter_map_fst _ cv hk hc, hcompl (c, ci) hc]
    simp
  have hcal : c ∈ (analyze_data_flow cv deps).calc_cells ↔
      ci.is_formula = true ∧ dependedByOf deps c ≠ [] := by
    rw [analyze_data_flow, adf_calcs, List.nil_append,
      mem_filter_map_fst _ cv hk hc, hcompl (c, ci) hc]
    cases hfm : ci.is_formula <;> by_cases hdb : dependedByOf deps c = [] <;>
      simp [hdb]
  have hout : c ∈ (analyze_data_flow cv deps).output_cells ↔
      ci.is_formula = true ∧ dependedByOf deps c = [] := by
    rw [analyze_data_flow, adf_outputs, List.nil_append,
      mem_filter_map_fst _ cv hk hc, hcompl (c, ci) hc]
    cases hfm : ci.is_formula <;> by_cases hdb : dependedByOf deps c = [] <;>
      simp [hdb]
  refine ⟨⟨hin, hcal, hout⟩, ?_⟩
  cases hfm : ci.is_formula
  · exact Or.inl ⟨hin.mpr hfm,
      fun h => by rw [hcal] at h; rw [hfm] at h; exact Bool.noConfusion h.1,
      fun h => by rw [hout] at h; rw [hfm] at h; exact Bool.noConfusion h.1⟩
  · by_cases hdb : dependedByOf deps c = []
    · refine Or.inr (Or.inr ⟨?_, ?_, hout.mpr ⟨hfm, hdb⟩⟩)
      · intro h; rw [hin] at h; rw [hfm] at h; cases h
      · intro h; exact (hcal.mp h).2 hdb
    · refine Or.inr (Or.inl ⟨?_, hcal.mpr ⟨hfm, hdb⟩, ?_⟩)
      · intro h; rw [hin] at h; rw [hfm] at h; cases h
      · intro h; exact hdb (hout.mp h).2

/-- C8 witness: the partition theorem at the spec's example table
(`A1`, `A2` literals, `A3 = "=A1+A2"`), instantiated at the formula cell
`Sheet1!A3`, which lands in `output_cells` and nowhere else. -/
theorem data_flow_partition_witness :
    ("Sheet1!A3" ∈ (analyze_data_flow exCellValues exDeps).output_cells ↔
      (⟨false, true⟩ : CellClass).is_formula = true ∧
        dependedByOf exDeps "Sheet1!A3" = []) ∧
    ("Sheet1!A3" ∉ (analyze_data_flow exCellValues exDeps).input_cells ∧
     "Sheet1!A3" ∉ (analyze_data_flow exCellValues exDeps).calc_cells ∧
     "Sheet1!A3" ∈ (analyze_data_flow exCellValues exDeps).output_cells) := by
  have h := data_flow_partition exCellValues exDeps (by decide) (by decide)
    "Sheet1!A3" ⟨false, true⟩ (by decide)
  refine ⟨h.1.2.2, ?_⟩
  rcases h.2 with h2 | h2 | h2
  · exact absurd h2.1 (by decide)
  · exact absurd h2.2.1 (by decide)
  · exact h2

/-! ## Pattern all-or-nothing (C9) -/

lemma braceRow_length : braceRow.length = 5 := rfl

lemma rowsubAux_ne_nil (rd : List Char) (n : Nat) (pw : Bool) (c : Char)
    (rest : List Char) : rowsubAux rd (n + 1) pw (c :: rest) ≠ [] := by
  unfold rowsubAux
  by_cases hpw : pw
  · simp [hpw]
  · rw [if_neg hpw]
    cases hm : matchRowTok rd (c :: rest) with
    | none => simp
    | some p =>
      obtain ⟨l, r⟩ := p
      intro he
      simp only [] at he
      have hlen := congrArg List.length he
      simp only [List.length_append, braceRow_length, List.length_nil] at hlen
      omega

lemma empty_string_data : ("" : String).data = [] := by decide

lemma string_ne_empty_iff (s : String) : s ≠ "" ↔ s.data ≠ [] := by
  constructor
  · intro h he
    apply h
    obtain ⟨d⟩ := s
    have hd : d = [] := he
    subst hd
    decide
  · intro h he
    apply h
    rw [he]

lemma rowTemplate_ne_empty (row : Nat) (f : String) (h : f ≠ "") :
    rowTemplate row f ≠ "" := by
  rw [string_ne_empty_iff] at h ⊢
  unfold rowTemplate
  obtain ⟨d⟩ := f
  cases d with
  | nil => exact absurd rfl h
  | cons c rest =>
    show rowsubAux _ ((c :: rest).length + 1) false (c :: rest) ≠ []
    rw [List.length_cons]
    exact rowsubAux_ne_nil _ _ _ _ _

lemma mem_dedup_foldl (l : List String) :
    ∀ (acc : List String) (x : String),
      x ∈ l.foldl (fun acc x => if x ∈ acc then acc else acc ++ [x]) acc ↔
        x ∈ acc ∨ x ∈ l := by
  induction l with
  | nil => simp
  | cons y l ih =>
    intro acc x
    simp only [List.foldl_cons, List.mem_cons]
    by_cases hy : y ∈ acc
    · rw [if_pos hy, ih]
      constructor
      · rintro (h | h)
        · exact Or.inl h
        · exact Or.inr (Or.inr h)
      · rintro (h | h | h)
        · exact Or.inl h
        · rw [h]; exact Or.inl hy
        · exact Or.inr h
    · rw [if_neg hy, ih]
      simp only [List.mem_append, List.mem_singleton]
      constructor
      · rintro ((h | h) | h)
        · exact Or.inl h
        · exact Or.inr (Or.inl h)
        · exact Or.inr (Or.inr h)
      · rintro (h | h | h)
        · exact Or.inl (Or.inl h)
        · exact Or.inl (Or.inr h)
        · exact Or.inr h

lemma dedup_foldl_stable (l : List String) :
    ∀ acc : List String, (∀ y ∈ l, y ∈ acc) →
      l.foldl (fun acc x => if x ∈ acc then acc else acc ++ [x]) acc = acc := by
  induction l with
  | nil => intro acc _; rfl
  | cons y l ih =>
    intro acc h
    simp only [List.foldl_cons, if_pos (h y (by simp))]
    exact ih acc (fun z hz => h z (by simp [hz]))

lemma mem_dedupFirst (l : List String) (x : String) :
    x ∈ dedupFirst l ↔ x ∈ l := by
  rw [dedupFirst, mem_dedup_foldl]
  simp

lemma dedupFirst_nil_iff (l : List String) : dedupFirst l = [] ↔ l = [] := by
  cases l with
  | nil => simp [dedupFirst]
  | cons x l =>
    constructor
    · intro h
      have hx : x ∈ dedupFirst (x :: l) := (mem_dedupFirst _ x).mpr (by simp)
      rw [h] at hx
      cases hx
    · intro h; cases h

lemma dedupFirst_length_one (l : List String) :
    (dedupFirst l).length = 1 ↔ ∃ t, l ≠ [] ∧ ∀ y ∈ l, y = t := by
  constructor
  · intro h
    obtain ⟨t, ht⟩ := List.length_eq_one.mp h
    refine ⟨t, ?_, ?_⟩
    · intro he
      rw [(dedupFirst_nil_iff l).mpr he] at ht
      cases ht
    · intro y hy
      have : y ∈ dedupFirst l := (mem_dedupFirst l y).mpr hy
      rw [ht] at this
      exact List.mem_singleton.mp this
  · rintro ⟨t, hne, hall⟩
    cases l with
    | nil => exact absurd rfl hne
    | cons y l =>
      have hyt : y = t := hall y (by simp)
      subst hyt
      rw [dedupFirst]
      simp only [List.foldl_cons, List.not_mem_nil, if_neg (fun h => h),
        List.nil_append]
      rw [dedup_foldl_stable l [y] (fun z hz => by
        rw [hall z (by simp [hz])]
        simp [hall y (by simp)])]
      rfl

lemma eft_cons_cons (p q : Nat × String) (rest : List (Nat × String)) :
    extract_formula_template (p :: q :: rest) =
      if (dedupFirst ((p :: q :: rest).map
            (fun x => rowTemplate x.1 x.2))).length = 1
      then some (((p :: q :: rest).map (fun x => rowTemplate x.1 x.2)).headD "")
      else none := rfl

lemma eft_isSome_iff (p q : Nat × String) (rest : List (Nat × String)) :
    (extract_formula_template (p :: q :: rest)).isSome = true ↔
      ∃ t, ∀ x ∈ p :: q :: rest, rowTemplate x.1 x.2 = t := by
  rw [eft_cons_cons]
  by_cases h :
      (dedupFirst ((p :: q :: rest).map (fun x => rowTemplate x.1 x.2))).length = 1
  · rw [if_pos h]
    simp only [Option.isSome_some, true_iff]
    obtain ⟨t, -, hall⟩ := (dedupFirst_length_one _).mp h
    exact ⟨t, fun x hx => hall _ (List.mem_map.mpr ⟨x, hx, rfl⟩)⟩
  · rw [if_neg h]
    simp only [Option.isSome_none, Bool.false_eq_true, false_iff]
    rintro ⟨t, hall⟩
    apply h
    rw [dedupFirst_length_one]
    refine ⟨t, by simp, ?_⟩
    intro y hy
    obtain ⟨x, hx, he⟩ := List.mem_map.mp hy
    rw [← he]
    exact hall x hx

lemma eft_some_val (p q : Nat × String) (rest : List (Nat × String)) {t : String}
    (h : extract_formula_template (p :: q :: rest) = some t) :
    t = rowTemplate p.1 p.2 := by
  rw [eft_cons_cons] at h
  by_cases hc :
      (dedupFirst ((p :: q :: rest).map (fun x => rowTemplate x.1 x.2))).length = 1
  · rw [if_pos hc] at h
    injection h with h2
    simp at h2
    exact h2.symm
  · rw [if_neg hc] at h
    cases h

lemma patternsForColumn_ne_nil_iff (sheet col : String) (p q : Nat × String)
    (rest : List (Nat × String)) (hlen : 3 ≤ (p :: q :: rest).length)
    (hne : ∀ x ∈ p :: q :: rest, x.2 ≠ "") :
    patternsForColumn sheet col (p :: q :: rest) ≠ [] ↔
      ∃ t, ∀ x ∈ p :: q :: rest, rowTemplate x.1 x.2 = t := by
  unfold patternsForColumn
  rw [if_pos hlen]
  by_cases hg : (extract_formula_template (p :: q :: rest)).getD "" ≠ ""
  · rw [if_pos hg]
    constructor
    · intro _
      apply (eft_isSome_iff p q rest).mp
      cases heft : extract_formula_template (p :: q :: rest) with
      | none => rw [heft] at hg; exact absurd rfl hg
      | some t => rfl
    · intro _
      simp
  · rw [if_neg hg]
    constructor
    · intro h; exact absurd rfl h
    · intro h
      exfalso
      apply hg
      have hs := (eft_isSome_iff p q rest).mpr h
      cases heft : extract_formula_template (p :: q :: rest) with
      | none => rw [heft] at hs; cases hs
      | some t =>
        show t ≠ ""
        have ht : t = rowTemplate p.1 p.2 := eft_some_val p q rest heft
        rw [ht]
        exact rowTemplate_ne_empty p.1 p.2 (hne p (by simp))

/-- C9: pattern reporting is all-or-nothing over a (sheet, column) group of
at least 3 formulas: the per-column loop reports a pattern for the group if
and only if every formula in it reduces to one identical template string;
and the concrete group `C2..C5` with one mismatching operator in `C5` yields
zero patterns. -/
theorem pattern_all_or_nothing :
    (∀ (sheet col : String) (fic : List (Nat × String)), 3 ≤ fic.length →
      (∀ x ∈ fic, x.2 ≠ "") →
      (patternsForColumn sheet col fic ≠ [] ↔
        ∃ t, ∀ x ∈ fic, rowTemplate x.1 x.2 = t)) ∧
    detect_patterns exMismatch = [] := by
  constructor
  · intro sheet col fic hlen hne
    rcases fic with _ | ⟨p, _ | ⟨q, rest⟩⟩
    · exact absurd hlen (by simp)
    · exact absurd hlen (by simp)
    · exact patternsForColumn_ne_nil_iff sheet col p q rest hlen hne
  · decide

/-- C9 witness: the all-or-nothing equivalence at the concrete group
`C2..C4` of `=A{row}*B{row}` formulas (whose templates do all agree, so a
pattern is reported). -/
theorem pattern_all_or_nothing_witness :
    (patternsForColumn "Sheet1" "C"
        [(2, "=A2*B2"), (3, "=A3*B3"), (4, "=A4*B4")] ≠ [] ↔
      ∃ t, ∀ x ∈ [(2, "=A2*B2"), (3, "=A3*B3"), (4, "=A4*B4")],
        rowTemplate x.1 x.2 = t) ∧
    patternsForColumn "Sheet1" "C"
      [(2, "=A2*B2"), (3, "=A3*B3"), (4, "=A4*B4")] ≠ [] :=
  ⟨pattern_all_or_nothing.1 "Sheet1" "C" _ (by decide) (by decide), by decide⟩

/-! ## The DFS of `_determine_calculation_order`

Throughout, a traversal state `s : St` is the pair (visited, order); the
cells "in progress" (visited but not yet appended) are exactly the Python
call stack of `visit`.  The basic properties below hold for every fuel
value; the ordering properties additionally need enough fuel and an acyclic
graph. -/

lemma visitCell_zero (g : DepMap) (c : String) (s : St) :
    visitCell g 0 c s = s := rfl

lemma visitList_nil (g : DepMap) (n : Nat) (s : St) :
    visitList g n [] s = s := rfl

lemma visitList_cons (g : DepMap) (n : Nat) (d : String) (ds : List String)
    (s : St) : visitList g n (d :: ds) s = visitList g n ds (visitCell g n d s) := rfl

lemma visitList_eq_foldl (g : DepMap) (n : Nat) (ds : List String) (s : St) :
    ds.foldl (fun t d => visitCell g n d t) s = visitList g n ds s := by
  induction ds generalizing s with
  | nil => rfl
  | cons d ds ih => rw [List.foldl_cons, visitList_cons]; exact ih _

lemma visitCell_succ (g : DepMap) (n : Nat) (c : String) (s : St) :
    visitCell g (n + 1) c s =
      if c ∈ s.1 then s
      else ((visitList g n (directDependsOf g c) (c :: s.1, s.2)).1,
            (visitList g n (directDependsOf g c) (c :: s.1, s.2)).2 ++ [c]) := by
  rw [← visitList_eq_foldl]
  rfl

/-- Well-formed traversal state: the order is duplicate-free and only holds
visited cells. -/
def WFSt (s : St) : Prop := s.2.Nodup ∧ ∀ x ∈ s.2, x ∈ s.1

/-- The set of in-progress cells (visited, not yet appended) is unchanged. -/
def StackPres (s s' : St) : Prop :=
  ∀ x, (x ∈ s'.1 ∧ x ∉ s'.2) ↔ (x ∈ s.1 ∧ x ∉ s.2)

/-- Basic properties of one traversal step: visited only grows, the order is
only appended to, and well-formedness and the in-progress set are preserved. -/
def BasicP (s s' : St) : Prop :=
  s.1 ⊆ s'.1 ∧ (∃ t, s'.2 = s.2 ++ t) ∧ (WFSt s → WFSt s' ∧ StackPres s s')

lemma basicP_rfl (s : St) : BasicP s s :=
  ⟨fun _ h => h, ⟨[], by simp⟩, fun w => ⟨w, fun _ => Iff.rfl⟩⟩

lemma basicP_trans {s1 s2 s3 : St} (h1 : BasicP s1 s2) (h2 : BasicP s2 s3) :
    BasicP s1 s3 := by
  obtain ⟨hv1, ⟨t1, ho1⟩, hw1⟩ := h1
  obtain ⟨hv2, ⟨t2, ho2⟩, hw2⟩ := h2
  refine ⟨fun x hx => hv2 (hv1 hx), ⟨t1 ++ t2, by rw [ho2, ho1, List.append_assoc]⟩, ?_⟩
  intro w
  obtain ⟨w1, sp1⟩ := hw1 w
  obtain ⟨w2, sp2⟩ := hw2 w1
  exact ⟨w2, fun x => (sp2 x).trans (sp1 x)⟩

lemma visitList_basic_of (g : DepMap) (n : Nat)
    (h : ∀ c s, BasicP s (visitCell g n c s)) :
    ∀ ds s, BasicP s (visitList g n ds s) := by
  intro ds
  induction ds with
  | nil => intro s; exact basicP_rfl s
  | cons d ds ih =>
    intro s
    rw [visitList_cons]
    exact basicP_trans (h d s) (ih _)

lemma visitCell_basic (g : DepMap) : ∀ n c s, BasicP s (visitCell g n c s) := by
  intro n
  induction n with
  | zero => intro c s; exact basicP_rfl s
  | succ n ihn =>
    intro c s
    rw [visitCell_succ g n c s]
    by_cases hc : c ∈ s.1
    · rw [if_pos hc]; exact basicP_rfl s
    · rw [if_neg hc]
      obtain ⟨hv2, ⟨t2, ho2⟩, hw2⟩ :=
        visitList_basic_of g n ihn (directDependsOf g c) (c :: s.1, s.2)
      refine ⟨fun x hx => hv2 (List.mem_cons_of_mem c hx),
        ⟨t2 ++ [c], by rw [ho2, List.append_assoc]⟩, ?_⟩
      intro hw
      have hcns : c ∉ s.2 := fun h2 => hc (hw.2 c h2)
      have hw1 : WFSt (c :: s.1, s.2) :=
        ⟨hw.1, fun x hx => List.mem_cons_of_mem c (hw.2 x hx)⟩
      obtain ⟨hw2', hsp2⟩ := hw2 hw1
      have hc2 : c ∈ (visitList g n (directDependsOf g c) (c :: s.1, s.2)).1 ∧
          c ∉ (visitList g n (directDependsOf g c) (c :: s.1, s.2)).2 :=
        (hsp2 c).mpr ⟨List.mem_cons_self c s.1, hcns⟩
      constructor
      · constructor
        · rw [List.nodup_append]
          exact ⟨hw2'.1, List.nodup_singleton c,
            fun a ha hb => hc2.2 ((List.mem_singleton.mp hb) ▸ ha)⟩
        · intro x hx
          rcases List.mem_append.mp hx with h2 | h2
          · exact hw2'.2 x h2
          · rw [List.mem_singleton.mp h2]; exact hc2.1
      · intro x
        constructor
        · rintro ⟨hx1, hx2⟩
          simp only [List.mem_append, List.mem_singleton, not_or] at hx2
          have := (hsp2 x).mp ⟨hx1, hx2.1⟩
          rcases List.mem_cons.mp this.1 with he | hm
          · exact absurd he hx2.2
          · exact ⟨hm, this.2⟩
        · rintro ⟨hx1, hx2⟩
          have hxc : x ≠ c := fun he => hc (he ▸ hx1)
          have := (hsp2 x).mpr ⟨List.mem_cons_of_mem c hx1, hx2⟩
          refine ⟨this.1, ?_⟩
          simp only [List.mem_append, List.mem_singleton, not_or]
          exact ⟨this.2, hxc⟩

lemma visitList_basic (g : DepMap) (n : Nat) :
    ∀ ds s, BasicP s (visitList g n ds s) :=
  visitList_basic_of g n (visitCell_basic g n)

/-! ### Every cell of the output is a key (graphs built by
`_analyze_dependencies` are key-closed) -/

/-- Every `direct_depends` target is itself a key of the dict. -/
def ClosedG (g : DepMap) : Prop :=
  ∀ a d, d ∈ directDependsOf g a → d ∈ g.map Prod.fst

lemma visit_keys (g : DepMap) (hcl : ClosedG g) :
    ∀ n, (∀ c s, c ∈ g.map Prod.fst →
            (∀ x ∈ s.1, x ∈ g.map Prod.fst) → (∀ x ∈ s.2, x ∈ g.map Prod.fst) →
            (∀ x ∈ (visitCell g n c s).1, x ∈ g.map Prod.fst) ∧
            (∀ x ∈ (visitCell g n c s).2, x ∈ g.map Prod.fst)) ∧
         (∀ ds s, (∀ d ∈ ds, d ∈ g.map Prod.fst) →
            (∀ x ∈ s.1, x ∈ g.map Prod.fst) → (∀ x ∈ s.2, x ∈ g.map Prod.fst) →
            (∀ x ∈ (visitList g n ds s).1, x ∈ g.map Prod.fst) ∧
            (∀ x ∈ (visitList g n ds s).2, x ∈ g.map Prod.fst)) := by
  have hlist : ∀ n,
      (∀ c s, c ∈ g.map Prod.fst →
        (∀ x ∈ s.1, x ∈ g.map Prod.fst) → (∀ x ∈ s.2, x ∈ g.map Prod.fst) →
        (∀ x ∈ (visitCell g n c s).1, x ∈ g.map Prod.fst) ∧
        (∀ x ∈ (visitCell g n c s).2, x ∈ g.map Prod.fst)) →
      ∀ ds s, (∀ d ∈ ds, d ∈ g.map Prod.fst) →
        (∀ x ∈ s.1, x ∈ g.map Prod.fst) → (∀ x ∈ s.2, x ∈ g.map Prod.fst) →
        (∀ x ∈ (visitList g n ds s).1, x ∈ g.map Prod.fst) ∧
        (∀ x ∈ (visitList g n ds s).2, x ∈ g.map Prod.fst) := by
    intro n hcell ds
    induction ds with
    | nil => intro s _ h1 h2; exact ⟨h1, h2⟩
    | cons d ds ih =>
      intro s hds h1 h2
      rw [visitList_cons]
      obtain ⟨k1, k2⟩ := hcell d s (hds d (by simp)) h1 h2
      exact ih _ (fun x hx => hds x (by simp [hx])) k1 k2
  intro n
  induction n with
  | zero =>
    refine ⟨fun c s _ h1 h2 => ⟨h1, h2⟩, ?_⟩
    exact hlist 0 (fun c s _ h1 h2 => ⟨h1, h2⟩)
  | succ n ihn =>
    have hcell : ∀ c s, c ∈ g.map Prod.fst →
        (∀ x ∈ s.1, x ∈ g.map Prod.fst) → (∀ x ∈ s.2, x ∈ g.map Prod.fst) →
        (∀ x ∈ (visitCell g (n+1) c s).1, x ∈ g.map Prod.fst) ∧
        (∀ x ∈ (visitCell g (n+1) c s).2, x ∈ g.map Prod.fst) := by
      intro c s hck h1 h2
      rw [visitCell_succ g n c s]
      by_cases hc : c ∈ s.1
      · rw [if_pos hc]; exact ⟨h1, h2⟩
      · rw [if_neg hc]
        have h1' : ∀ x ∈ c :: s.1, x ∈ g.map Prod.fst := by
          intro x hx
          rcases List.mem_cons.mp hx with he | hm
          · rw [he]; exact hck
          · exact h1 x hm
        obtain ⟨k1, k2⟩ := (hlist n ihn.1) (directDependsOf g c) (c :: s.1, s.2)
          (fun d hd => hcl c d hd) h1' h2
        refine ⟨k1, ?_⟩
        intro x hx
        rcases List.mem_append.mp hx with h3 | h3
        · exact k2 x h3
        · rw [List.mem_singleton.mp h3]; exact hck
    exact ⟨hcell, hlist (n+1) hcell⟩

/-! ### Completeness: every key is appended (no acyclicity needed) -/

lemma visitList_complete (g : DepMap) (n : Nat) :
    ∀ ks s, WFSt s → (∀ x ∈ s.1, x ∈ s.2) →
      (∀ k ∈ ks, k ∈ (visitList g (n+1) ks s).2) ∧
      WFSt (visitList g (n+1) ks s) ∧
      (∀ x ∈ (visitList g (n+1) ks s).1, x ∈ (visitList g (n+1) ks s).2) := by
  intro ks
  induction ks with
  | nil => intro s hw hse; exact ⟨by simp, hw, hse⟩
  | cons k ks ih =>
    intro s hw hse
    rw [visitList_cons]
    obtain ⟨hv1, ⟨t1, ho1⟩, hwsp⟩ := visitCell_basic g (n+1) k s
    obtain ⟨hw', hsp⟩ := hwsp hw
    have hse' : ∀ x ∈ (visitCell g (n+1) k s).1, x ∈ (visitCell g (n+1) k s).2 := by
      intro x hx
      by_contra hnx
      exact absurd (((hsp x).mp ⟨hx, hnx⟩).2) (fun h2 => h2 (hse x ((hsp x).mp ⟨hx, hnx⟩).1))
    have hkmem : k ∈ (visitCell g (n+1) k s).2 := by
      by_cases hk : k ∈ s.1
      · rw [visitCell_succ, if_pos hk]
        exact hse k hk
      · rw [visitCell_succ, if_neg hk]
        simp
    obtain ⟨hall, hwf, hsef⟩ := ih (visitCell g (n+1) k s) hw' hse'
    refine ⟨?_, hwf, hsef⟩
    intro x hx
    rcases List.mem_cons.mp hx with he | hm
    · obtain ⟨-, ⟨t2, ho2⟩, -⟩ :=
        visitList_basic g (n+1) ks (visitCell g (n+1) k s)
      rw [he, ho2]
      exact List.mem_append_left _ hkmem
    · exact hall x hm

/-! ### Key-closure of graphs built by `_analyze_dependencies` -/

lemma mem_keys_updDirect (m : DepMap) (k : String) (ds : List String) (a : String) :
    a ∈ (updDirect m k ds).map Prod.fst ↔ a ∈ m.map Prod.fst ∨ a = k := by
  induction m with
  | nil => simp [updDirect]
  | cons e rest ih =>
    obtain ⟨k', i⟩ := e
    by_cases h : k = k'
    · have he : updDirect ((k', i) :: rest) k ds =
          (k', ⟨ds, i.depended_by⟩) :: rest := by
        simp [updDirect, h]
      rw [he]
      simp only [List.map_cons, List.mem_cons]
      constructor
      · rintro (he2 | hm)
        · exact Or.inl (Or.inl he2)
        · exact Or.inl (Or.inr hm)
      · rintro ((he2 | hm) | he2)
        · exact Or.inl he2
        · exact Or.inr hm
        · exact Or.inl (he2.trans h)
    · simp only [updDirect, if_neg h, List.map_cons, List.mem_cons, ih]
      tauto

lemma mem_keys_addDby (m : DepMap) (k who : String) (a : String) :
    a ∈ (addDby m k who).map Prod.fst ↔ a ∈ m.map Prod.fst ∨ a = k := by
  induction m with
  | nil => simp [addDby]
  | cons e rest ih =>
    obtain ⟨k', i⟩ := e
    by_cases h : k = k'
    · have he : addDby ((k', i) :: rest) k who =
          (k', ⟨i.direct_depends, i.depended_by ++ [who]⟩) :: rest := by
        simp [addDby, h]
      rw [he]
      simp only [List.map_cons, List.mem_cons]
      constructor
      · rintro (he2 | hm)
        · exact Or.inl (Or.inl he2)
        · exact Or.inl (Or.inr hm)
      · rintro ((he2 | hm) | he2)
        · exact Or.inl he2
        · exact Or.inr hm
        · exact Or.inl (he2.trans h)
    · simp only [addDby, if_neg h, List.map_cons, List.mem_cons, ih]
      tauto

lemma mem_keys_addDbyFold (c : String) (ds : List String) (m : DepMap) (a : String) :
    a ∈ (ds.foldl (fun acc d => addDby acc d c) m).map Prod.fst ↔
      a ∈ m.map Prod.fst ∨ a ∈ ds := by
  induction ds generalizing m with
  | nil => simp
  | cons d ds ih =>
    simp only [List.foldl_cons, ih, mem_keys_addDby, List.mem_cons]
    tauto

lemma mem_keys_processFormula (m : DepMap) (cellRef formula a : String) :
    a ∈ (processFormula m cellRef formula).map Prod.fst ↔
      a ∈ m.map Prod.fst ∨ a = cellRef ∨ a ∈ normDeps cellRef formula := by
  unfold processFormula
  rw [mem_keys_addDbyFold, mem_keys_updDirect]
  tauto

lemma closedG_processFormula (m : DepMap) (cellRef formula : String)
    (h : ClosedG m) : ClosedG (processFormula m cellRef formula) := by
  intro a d hd
  rw [dd_processFormula] at hd
  rw [mem_keys_processFormula]
  by_cases ha : a = cellRef
  · rw [if_pos ha] at hd
    exact Or.inr (Or.inr hd)
  · rw [if_neg ha] at hd
    exact Or.inl (h a d hd)

lemma closedG_analyze (formulas : List (String × String)) :
    ClosedG (analyze_dependencies formulas) := by
  unfold analyze_dependencies
  have : ∀ (fs : List (String × String)) (m : DepMap), ClosedG m →
      ClosedG (fs.foldl (fun m p => processFormula m p.1 p.2) m) := by
    intro fs
    induction fs with
    | nil => intro m h; exact h
    | cons p fs ih =>
      intro m h
      rw [List.foldl_cons]
      exact ih _ (closedG_processFormula m p.1 p.2 h)
  apply this
  intro a d hd
  cases hd

lemma calc_order_mem (formulas : List (String × String)) (a : String) :
    a ∈ determine_calculation_order formulas ↔
      a ∈ (analyze_dependencies formulas).map Prod.fst := by
  unfold determine_calculation_order determineCalculationOrderFrom calcOrderFuel
  constructor
  · intro ha
    exact ((visit_keys (analyze_dependencies formulas) (closedG_analyze formulas)
      ((universeOf (analyze_dependencies formulas)).length + 1)).2
      ((analyze_dependencies formulas).map Prod.fst) ([], [])
      (fun d hd => hd) (by simp) (by simp)).2 a ha
  · intro ha
    exact (visitList_complete (analyze_dependencies formulas)
      (universeOf (analyze_dependencies formulas)).length
      ((analyze_dependencies formulas).map Prod.fst) ([], [])
      ⟨List.nodup_nil, by simp⟩ (by simp)).1 a ha

/-- C4 amended: the calculation order contains an address iff it is a key of
the dependencies dict, i.e. it is a formula cell or a referenced cell
(including plain-literal cells); the order is NOT restricted to formula
cells. -/
theorem calculation_order_mem_iff (formulas : List (String × String)) (a : String) :
    a ∈ determine_calculation_order formulas ↔
      a ∈ (analyze_dependencies formulas).map Prod.fst :=
  calc_order_mem formulas a

/-! ## Dependency-respecting order on acyclic graphs (C1) -/

/-- The dependency edge relation: `depEdge g a b` holds when the formula
cell `a` directly depends on `b`. -/
def depEdge (g : DepMap) (a b : String) : Prop := b ∈ directDependsOf g a

/-- No cell transitively depends on itself. -/
def AcyclicDeps (g : DepMap) : Prop :=
  ∀ c, ¬ Relation.TransGen (depEdge g) c c

/-- Dependency-respecting order: every direct dependency of a listed cell is
listed strictly earlier. -/
def GoodOrd (g : DepMap) (l : List String) : Prop :=
  ∀ a ∈ l, ∀ d ∈ directDependsOf g a, d ∈ l ∧ l.indexOf d < l.indexOf a

/-- Number of universe cells not yet visited (the fuel measure). -/
def measU (g : DepMap) (v : List String) : Nat :=
  ((universeOf g).toFinset \ v.toFinset).card

lemma acyclic_of_rank (g : DepMap) (rank : String → Nat)
    (h : ∀ a b, depEdge g a b → rank b < rank a) : AcyclicDeps g := by
  intro c hc
  have hlt : ∀ x y : String, Relation.TransGen (depEdge g) x y → rank y < rank x := by
    intro x y hxy
    induction hxy with
    | single h1 => exact h _ _ h1
    | tail _ h2 ih => exact lt_trans (h _ _ h2) ih
  exact absurd (hlt c c hc) (lt_irrefl _)

lemma measU_mono (g : DepMap) {v v' : List String} (h : v ⊆ v') :
    measU g v' ≤ measU g v := by
  apply Finset.card_le_card
  apply Finset.sdiff_subset_sdiff (Finset.Subset.refl _)
  intro x hx
  rw [List.mem_toFinset] at hx ⊢
  exact h hx

lemma measU_lt (g : DepMap) {c : String} {v : List String}
    (hc : c ∈ universeOf g) (hv : c ∉ v) : measU g (c :: v) < measU g v := by
  unfold measU
  have h1 : (universeOf g).toFinset \ (c :: v).toFinset =
      ((universeOf g).toFinset \ v.toFinset).erase c := by
    rw [List.toFinset_cons, Finset.sdiff_insert]
  rw [h1]
  apply Finset.card_erase_lt_of_mem
  rw [Finset.mem_sdiff, List.mem_toFinset, List.mem_toFinset]
  exact ⟨hc, hv⟩

lemma measU_le (g : DepMap) (v : List String) :
    measU g v ≤ (universeOf g).length :=
  le_trans (Finset.card_le_card Finset.sdiff_subset) (List.toFinset_card_le _)

lemma keys_sub_universe (g : DepMap) {a : String} (h : a ∈ g.map Prod.fst) :
    a ∈ universeOf g := List.mem_append_left _ h

lemma lookupDep_mem (m : DepMap) (k : String) (i : DepInfo)
    (h : lookupDep m k = some i) : (k, i) ∈ m := by
  induction m with
  | nil => cases h
  | cons e rest ih =>
    obtain ⟨k', i'⟩ := e
    simp only [lookupDep] at h
    by_cases hk : k = k'
    · rw [if_pos hk] at h
      injection h with h2
      exact List.mem_cons.mpr (Or.inl (by rw [hk, h2]))
    · rw [if_neg hk] at h
      exact List.mem_cons_of_mem _ (ih h)

lemma dep_mem_universe (g : DepMap) {a d : String}
    (h : d ∈ directDependsOf g a) : d ∈ universeOf g := by
  rcases hl : lookupDep g a with - | i
  · simp [directDependsOf, hl] at h
  · simp only [directDependsOf, hl] at h
    have hmem := lookupDep_mem g a i hl
    apply List.mem_append_right
    rw [List.mem_flatten]
    exact ⟨i.direct_depends, List.mem_map.mpr ⟨(a, i), hmem, rfl⟩, h⟩

lemma goodOrd_append (g : DepMap) (l : List String) (c : String)
    (hg : GoodOrd g l) (hc : c ∉ l) (_hnd : l.Nodup)
    (hdeps : ∀ d ∈ directDependsOf g c, d ∈ l) :
    GoodOrd g (l ++ [c]) := by
  intro a ha d hd
  rcases List.mem_append.mp ha with hal | hac
  · obtain ⟨hdl, hlt⟩ := hg a hal d hd
    refine ⟨List.mem_append_left _ hdl, ?_⟩
    rw [List.indexOf_append_of_mem hdl, List.indexOf_append_of_mem hal]
    exact hlt
  · have hac' : a = c := List.mem_singleton.mp hac
    have hdl := hdeps d (hac' ▸ hd)
    refine ⟨List.mem_append_left _ hdl, ?_⟩
    rw [List.indexOf_append_of_mem hdl, hac',
        List.indexOf_append_of_not_mem hc, List.indexOf_cons_self]
    have := List.indexOf_lt_length.mpr hdl
    omega

lemma visit_good_list_of (g : DepMap) (n : Nat)
    (hcell : ∀ c s, WFSt s → GoodOrd g s.2 →
      (∀ x, x ∈ s.1 → x ∉ s.2 → Relation.TransGen (depEdge g) x c) →
      measU g s.1 + 1 ≤ n → c ∈ universeOf g →
      GoodOrd g (visitCell g n c s).2 ∧ c ∈ (visitCell g n c s).2) :
    ∀ ds s, WFSt s → GoodOrd g s.2 →
      (∀ x, ∀ d ∈ ds, x ∈ s.1 → x ∉ s.2 → Relation.TransGen (depEdge g) x d) →
      measU g s.1 + 1 ≤ n → (∀ d ∈ ds, d ∈ universeOf g) →
      GoodOrd g (visitList g n ds s).2 ∧
        ∀ d ∈ ds, d ∈ (visitList g n ds s).2 := by
  intro ds
  induction ds with
  | nil => intro s _ hg _ _ _; exact ⟨hg, by simp⟩
  | cons d ds ih =>
    intro s hw hg hstack hfuel huniv
    rw [visitList_cons]
    obtain ⟨hg1, hd1⟩ := hcell d s hw hg
      (fun x hx hnx => hstack x d (by simp) hx hnx) hfuel (huniv d (by simp))
    obtain ⟨hv1, ⟨t1, ho1⟩, hwsp⟩ := visitCell_basic g n d s
    obtain ⟨hw1, hsp1⟩ := hwsp hw
    have hfuel1 : measU g (visitCell g n d s).1 + 1 ≤ n := by
      have hm := measU_mono g hv1
      omega
    have hstack1 : ∀ x, ∀ e ∈ ds, x ∈ (visitCell g n d s).1 →
        x ∉ (visitCell g n d s).2 → Relation.TransGen (depEdge g) x e := by
      intro x e he hx hnx
      obtain ⟨hx', hnx'⟩ := (hsp1 x).mp ⟨hx, hnx⟩
      exact hstack x e (by simp [he]) hx' hnx'
    obtain ⟨hgf, hdf⟩ := ih (visitCell g n d s) hw1 hg1 hstack1 hfuel1
      (fun e he => huniv e (by simp [he]))
    refine ⟨hgf, ?_⟩
    intro e he
    rcases List.mem_cons.mp he with hee | hem
    · obtain ⟨-, ⟨t2, ho2⟩, -⟩ := visitList_basic g n ds (visitCell g n d s)
      rw [hee, ho2]
      exact List.mem_append_left _ hd1
    · exact hdf e hem

lemma visit_good (g : DepMap) (hacyc : AcyclicDeps g) :
    ∀ n c s, WFSt s → GoodOrd g s.2 →
      (∀ x, x ∈ s.1 → x ∉ s.2 → Relation.TransGen (depEdge g) x c) →
      measU g s.1 + 1 ≤ n → c ∈ universeOf g →
      GoodOrd g (visitCell g n c s).2 ∧ c ∈ (visitCell g n c s).2 := by
  intro n
  induction n with
  | zero => intro c s _ _ _ hfuel _; omega
  | succ n ihn =>
    intro c s hw hg hstack hfuel hcu
    rw [visitCell_succ g n c s]
    by_cases hc : c ∈ s.1
    · rw [if_pos hc]
      by_cases hcs : c ∈ s.2
      · exact ⟨hg, hcs⟩
      · exact absurd (hstack c hc hcs) (hacyc c)
    · rw [if_neg hc]
      have hcns : c ∉ s.2 := fun h2 => hc (hw.2 c h2)
      have hw1 : WFSt (c :: s.1, s.2) :=
        ⟨hw.1, fun x hx => List.mem_cons_of_mem c (hw.2 x hx)⟩
      have hstack1 : ∀ x, ∀ d ∈ directDependsOf g c, x ∈ (c :: s.1, s.2).1 →
          x ∉ (c :: s.1, s.2).2 → Relation.TransGen (depEdge g) x d := by
        intro x d hd hx hnx
        rcases List.mem_cons.mp hx with he | hm
        · rw [he]
          exact Relation.TransGen.single (show depEdge g c d from hd)
        · exact (hstack x hm hnx).tail (show depEdge g c d from hd)
      have hfuel1 : measU g (c :: s.1) + 1 ≤ n := by
        have hlt := measU_lt g hcu hc
        omega
      obtain ⟨hg2, hd2⟩ := visit_good_list_of g n ihn (directDependsOf g c)
        (c :: s.1, s.2) hw1 hg hstack1 hfuel1
        (fun d hd => dep_mem_universe g hd)
      obtain ⟨hv2, ⟨t2, ho2⟩, hwsp2⟩ :=
        visitList_basic g n (directDependsOf g c) (c :: s.1, s.2)
      obtain ⟨hw2, hsp2⟩ := hwsp2 hw1
      have hc2 : c ∈ (visitList g n (directDependsOf g c) (c :: s.1, s.2)).1 ∧
          c ∉ (visitList g n (directDependsOf g c) (c :: s.1, s.2)).2 :=
        (hsp2 c).mpr ⟨List.mem_cons_self c s.1, hcns⟩
      refine ⟨goodOrd_append g _ c hg2 hc2.2 hw2.1 hd2, by simp⟩

lemma visit_good_top (g : DepMap) (hacyc : AcyclicDeps g) (N : Nat)
    (hN : ∀ v : List String, measU g v + 1 ≤ N) :
    ∀ ks s, WFSt s → GoodOrd g s.2 → (∀ x ∈ s.1, x ∈ s.2) →
      (∀ k ∈ ks, k ∈ universeOf g) →
      GoodOrd g (visitList g N ks s).2 := by
  intro ks
  induction ks with
  | nil => intro s _ hg _ _; exact hg
  | cons k ks ih =>
    intro s hw hg hse hku
    rw [visitList_cons]
    have hstack : ∀ x, x ∈ s.1 → x ∉ s.2 → Relation.TransGen (depEdge g) x k :=
      fun x hx hnx => absurd (hse x hx) hnx
    obtain ⟨hg1, -⟩ := visit_good g hacyc N k s hw hg hstack (hN s.1) (hku k (by simp))
    obtain ⟨-, -, hwsp⟩ := visitCell_basic g N k s
    obtain ⟨hw1, hsp1⟩ := hwsp hw
    have hse1 : ∀ x ∈ (visitCell g N k s).1, x ∈ (visitCell g N k s).2 := by
      intro x hx
      by_contra hnx
      obtain ⟨hx', hnx'⟩ := (hsp1 x).mp ⟨hx, hnx⟩
      exact hnx' (hse x hx')
    exact ih _ hw1 hg1 hse1 (fun e he => hku e (by simp [he]))

lemma calc_order_good (g : DepMap) (hacyc : AcyclicDeps g) :
    GoodOrd g (determineCalculationOrderFrom g) := by
  unfold determineCalculationOrderFrom
  apply visit_good_top g hacyc (calcOrderFuel g)
    (fun v => by unfold calcOrderFuel; have := measU_le g v; omega)
    (g.map Prod.fst) ([], [])
  · exact ⟨List.nodup_nil, by simp⟩
  · intro a ha; cases ha
  · intro x hx; cases hx
  · intro k hk; exact keys_sub_universe g hk

lemma goodOrd_path (g : DepMap) (l : List String) (hg : GoodOrd g l)
    (A B : String) (hA : A ∈ l)
    (hpath : Relation.TransGen (depEdge g) A B) :
    B ∈ l ∧ l.indexOf B < l.indexOf A := by
  induction hpath with
  | single h => exact hg A hA _ h
  | tail hp h ih =>
    obtain ⟨hb, hlt⟩ := ih
    obtain ⟨hcm, hlt2⟩ := hg _ hb _ h
    exact ⟨hcm, lt_trans hlt2 hlt⟩

lemma keys_mono_foldl (fs : List (String × String)) :
    ∀ (m : DepMap) (a : String),
      a ∈ m.map Prod.fst ∨ a ∈ fs.map Prod.fst →
      a ∈ (fs.foldl (fun m p => processFormula m p.1 p.2) m).map Prod.fst := by
  induction fs with
  | nil =>
    intro m a h
    rcases h with h | h
    · exact h
    · cases h
  | cons p fs ih =>
    intro m a h
    rw [List.foldl_cons]
    rcases h with h | h
    · exact ih _ a (Or.inl (by rw [mem_keys_processFormula]; exact Or.inl h))
    · rcases List.mem_cons.mp h with he | hm
      · exact ih _ a
          (Or.inl (by rw [mem_keys_processFormula]; exact Or.inr (Or.inl he)))
      · exact ih _ a (Or.inr hm)

lemma formula_cells_are_keys (formulas : List (String × String)) {A : String}
    (hA : A ∈ formulas.map Prod.fst) :
    A ∈ (analyze_dependencies formulas).map Prod.fst :=
  keys_mono_foldl formulas [] A (Or.inr hA)

/-- C1: for every formula table whose dependency graph is acyclic, the
calculation order is dependency-respecting: if formula cell `A` depends
transitively on `B`, then `B` appears in the order strictly before `A`. -/
theorem calculation_order_respects_dependencies
    (formulas : List (String × String))
    (hacyc : AcyclicDeps (analyze_dependencies formulas))
    (A B : String)
    (hA : A ∈ formulas.map Prod.fst) (_hB : B ∈ formulas.map Prod.fst)
    (hpath : Relation.TransGen (depEdge (analyze_dependencies formulas)) A B) :
    B ∈ determine_calculation_order formulas ∧
    A ∈ determine_calculation_order formulas ∧
    (determine_calculation_order formulas).indexOf B <
      (determine_calculation_order formulas).indexOf A := by
  have hAord : A ∈ determine_calculation_order formulas :=
    (calc_order_mem formulas A).mpr (formula_cells_are_keys formulas hA)
  have hgood : GoodOrd (analyze_dependencies formulas)
      (determine_calculation_order formulas) :=
    calc_order_good (analyze_dependencies formulas) hacyc
  obtain ⟨hBord, hlt⟩ :=
    goodOrd_path (analyze_dependencies formulas)
      (determine_calculation_order formulas) hgood A B hAord hpath
  exact ⟨hBord, hAord, hlt⟩

lemma depEdge_iff (g : DepMap) (a b : String) :
    depEdge g a b ↔ b ∈ directDependsOf g a := Iff.rfl

/-- C1 witness: the ordering theorem at the concrete acyclic table
`S!A2 = "=A1"`, `S!A1 = "=5"` (so formula cell `S!A2` depends on formula
cell `S!A1`), whose acyclicity is discharged by a ranking function. -/
theorem calculation_order_respects_dependencies_witness :
    "S!A1" ∈ determine_calculation_order [("S!A2", "=A1"), ("S!A1", "=5")] ∧
    "S!A2" ∈ determine_calculation_order [("S!A2", "=A1"), ("S!A1", "=5")] ∧
    (determine_calculation_order [("S!A2", "=A1"), ("S!A1", "=5")]).indexOf "S!A1" <
      (determine_calculation_order [("S!A2", "=A1"), ("S!A1", "=5")]).indexOf "S!A2" := by
  have hacyc : AcyclicDeps (analyze_dependencies [("S!A2", "=A1"), ("S!A1", "=5")]) := by
    apply acyclic_of_rank _ (fun x => if x = "S!A2" then 1 else 0)
    intro a b hab
    rw [depEdge_iff,
      show analyze_dependencies [("S!A2", "=A1"), ("S!A1", "=5")] =
        [("S!A2", ⟨["S!A1"], []⟩), ("S!A1", ⟨[], ["S!A2"]⟩)] from by decide] at hab
    by_cases ha1 : a = "S!A2"
    · subst ha1
      rw [show directDependsOf
          [("S!A2", ⟨["S!A1"], []⟩), ("S!A1", ⟨[], ["S!A2"]⟩)] "S!A2" =
          ["S!A1"] from by decide] at hab
      have hb : b = "S!A1" := List.mem_singleton.mp hab
      rw [hb]
      decide
    · by_cases ha2 : a = "S!A1"
      · subst ha2
        rw [show directDependsOf
            [("S!A2", ⟨["S!A1"], []⟩), ("S!A1", ⟨[], ["S!A2"]⟩)] "S!A1" =
            [] from by decide] at hab
        cases hab
      · have hdd : directDependsOf
            [("S!A2", ⟨["S!A1"], []⟩), ("S!A1", ⟨[], ["S!A2"]⟩)] a = [] := by
          simp only [directDependsOf, lookupDep]
          rw [if_neg ha1, if_neg ha2]
        rw [hdd] at hab
        cases hab
  exact calculation_order_respects_dependencies [("S!A2", "=A1"), ("S!A1", "=5")]
    hacyc "S!A2" "S!A1" (by decide) (by decide)
    (Relation.TransGen.single ((depEdge_iff _ _ _).mpr (by decide)))

/-! ## Claim theorems -/

/-! ## Claim theorems -/

/-- C5 counterexample: for the formula `='My Sheet'!B2`, the reference set
does NOT contain the normalized form `My Sheet!B2` claimed by the spec; the
source keeps the quotes of `match.group(1)`. -/
theorem quoted_sheet_not_normalized :
    "My Sheet!B2" ∉ extract_cell_references formulaQuoted := by decide

/-- C5 amended: the parsed reference set for `='My Sheet'!B2` contains
exactly the quoted reference `'My Sheet'!B2` (sheet-name quotes retained,
coordinate unchanged). -/
theorem quoted_sheet_kept :
    extract_cell_references formulaQuoted = [quotedMySheet ++ "!B2"] := by decide

/-- C6: on the failing input `=LOG10(A1)`, the coordinate-shaped function
name `LOG10` is returned both as a used function and as a cell reference —
`_extract_cell_references` has no token-followed-by-parenthesis guard, so
the claimed property fails on the code. -/
theorem function_name_in_references :
    "LOG10" ∈ extract_cell_references "=LOG10(A1)" ∧
    "LOG10" ∈ extract_functions "=LOG10(A1)" ∧
    extract_cell_references "=LOG10(A1)" = ["LOG10", "A1"] := by decide

/-- C7 counterexample: the absolute reference `$A$1` does not yield the
reference `A1`; no `$`-stripping exists in `_extract_cell_references`, and
the coordinate regex cannot match across the inner `$`. -/
theorem absolute_ref_lost :
    "A1" ∉ extract_cell_references "=$A$1" := by decide

/-- C7 amended: absolute-reference markers are not stripped: `$A$1` and
`A$1` produce no reference at all, while `$A1` happens to produce `A1` only
because the leading `$` forms a word boundary; extraction is therefore NOT
insensitive to absolute vs. relative addressing. -/
theorem absolute_ref_behavior :
    extract_cell_references "=$A$1" = [] ∧
    extract_cell_references "=A$1" = [] ∧
    extract_cell_references "=$A1" = ["A1"] ∧
    extract_cell_references "=A1" = ["A1"] := by decide

/-- C2 counterexample: on the 2-cycle table the calculation order is the
very same bare list of addresses that the acyclic table
`[A1 = "=B1"]` produces, so the result carries no cycle-membership flag of
any kind (the claimed tagging does not exist in the output). -/
theorem cycle_no_flag :
    determine_calculation_order cycTable = determine_calculation_order acycTable ∧
    determine_calculation_order cycTable = ["Sheet1!B1", "Sheet1!A1"] := by decide

/-- C2 amended: for the 2-cycle table the resolver terminates (it is a total
function of its fuel-bounded traversal), both cells appear in the returned
order and no exception is raised — but the cells are NOT tagged with any
cycle-membership flag; the result is a bare address list. -/
theorem cycle_terminates_both_in_order :
    "Sheet1!A1" ∈ determine_calculation_order cycTable ∧
    "Sheet1!B1" ∈ determine_calculation_order cycTable := by decide

/-- C4 counterexample: for the table `A1=10`, `A2=20`, `A3="=A1+A2"` the
calculation order is `[Sheet1!A1, Sheet1!A2, Sheet1!A3]`, not `[Sheet1!A3]`:
the plain-literal cells `A1` and `A2` (which are not formula cells) appear
in the output, because `visit` appends every dependency it reaches. -/
theorem literal_cells_in_order :
    determine_calculation_order exTable = ["Sheet1!A1", "Sheet1!A2", "Sheet1!A3"] ∧
    "Sheet1!A1" ∉ exTable.map Prod.fst ∧
    determine_calculation_order exTable ≠ ["Sheet1!A3"] := by decide

/-- C10 counterexample: for the column group `C2..C5` of `=A{row}*B{row}`
formulas, the reported template is `=A{row}*B{row}` (the formula marker `=`
included), not the claimed `A{row}*B{row}`. -/
theorem pattern_template_has_marker :
    (detect_patterns exAllSame).map Pattern.formula_template ≠
      ["A\x7brow\x7d*B\x7brow\x7d"] ∧
    (detect_patterns exAllSame).map Pattern.formula_template =
      ["=A\x7brow\x7d*B\x7brow\x7d"] := by decide

/-- C10 amended: the column group `C2..C5` of `=A{row}*B{row}` formulas
yields exactly one pattern, with template `=A{row}*B{row}` (leading formula
marker retained), occurrence count 4 and covered rows 2 through 5. -/
theorem pattern_example_full :
    detect_patterns exAllSame =
      [{ ptype := "column_loop", sheet := "Sheet1", column := "C",
         description := "列 C 中的重複公式模式", range := "Sheet1!C2:C5",
         formula_template := "=A\x7brow\x7d*B\x7brow\x7d", count := 4,
         rows := [2, 3, 4, 5] }] := by decide

end ExcelCtx
